import Mathlib

/-!
Verification of the WhatsApp webhook message pipeline.

Shallow embedding of the core of the repository:
  - `utils/parser.py`: `extract_links` (the regex scan for the pattern
    https?://\S+, joined with ", ") and `parse_whatsapp_message`;
  - `subscriber.py`: the processor registry (`add_processor`,
    `remove_processor`) and the dispatch loop (`process_message`);
  - `processors/logging_processor.py`: `LoggingProcessor.process`.

Python strings are modelled as lists of characters; Python `None` as
`Option.none`.  The regex character class \S (non-whitespace) is modelled
over the ASCII whitespace characters recognised by Python's `re` module
(space, tab, newline, carriage return, vertical tab, form feed); all
behaviour relevant here is within ASCII.
-/

/-- Python `str`, modelled as a list of characters. -/
abbrev Str := List Char

/-- Coercion from Lean string literals into the model. -/
def str (x : String) : Str := x.data

/-- The ASCII whitespace characters matched by Python's regex \s
(complemented by \S): space, tab, newline, CR, vertical tab, form feed. -/
def isPySpace (c : Char) : Bool :=
  c = ' ' || c = '\t' || c = '\n' || c = '\r' || c = '\x0b' || c = '\x0c'

/-- The scheme part "http://" of the regex `https?://\S+`. -/
def httpChars : Str := ['h', 't', 't', 'p', ':', '/', '/']

/-- The scheme part "https://" of the regex `https?://\S+`. -/
def httpsChars : Str := ['h', 't', 't', 'p', 's', ':', '/', '/']

/-- Whether `p` occurs at the very start of `l` (used to test the scheme
part of the regex at the current scan position). -/
def beginsWith : Str → Str → Bool
  | [], _ => true
  | _ :: _, [] => false
  | p :: ps, c :: cs => if p = c then beginsWith ps cs else false

/-- One attempt of the regex `https?://\S+` at the head of `cs`
(Python regex semantics: `https?` resolves the optional `s` by
lookahead—the two schemes are mutually exclusive—and `\S+` is greedy).
Returns the matched substring and the remainder of the input after the
match, or `none` when no match starts at the head. -/
def matchAt (cs : Str) : Option (Str × Str) :=
  if beginsWith httpsChars cs then
    let rest0 := cs.drop httpsChars.length
    let t := rest0.takeWhile (fun c => !isPySpace c)
    if t = [] then none
    else some (httpsChars ++ t, rest0.dropWhile (fun c => !isPySpace c))
  else if beginsWith httpChars cs then
    let rest0 := cs.drop httpChars.length
    let t := rest0.takeWhile (fun c => !isPySpace c)
    if t = [] then none
    else some (httpChars ++ t, rest0.dropWhile (fun c => !isPySpace c))
  else none

/-- The scan loop of `re.findall(r'https?://\S+', text)`: try a match at
every position left to right; on a match, emit it and resume after the
match (non-overlapping); otherwise advance one character.  Fuelled so the
definition is structurally recursive (each match consumes at least one
character, so `text.length` fuel always suffices; see `findall`). -/
def findallFuel : Nat → Str → List Str
  | 0, _ => []
  | _ + 1, [] => []
  | fuel + 1, c :: cs =>
    match matchAt (c :: cs) with
    | some (m, rest) => m :: findallFuel fuel rest
    | none => findallFuel fuel cs

/-- `re.findall(r'https?://\S+', text)`. -/
def findall (text : Str) : List Str := findallFuel text.length text

/-- Python `", ".join(ms)`. -/
def joinComma : List Str → Str
  | [] => []
  | [m] => m
  | m :: ms => m ++ str ", " ++ joinComma ms

/-- `extract_links` from `utils/parser.py`:
`", ".join(re.findall(r'https?://\S+', text)) if text else ""`.
The argument is `Option Str` because the caller passes a possibly-`None`
body; Python's truthiness test makes both `None` and `""` yield `""`. -/
def extract_links (text : Option Str) : Str :=
  match text with
  | none => []
  | some t => if t = [] then [] else joinComma (findall t)

/-- The nested payload object of a raw message, restricted to the fields
`parse_whatsapp_message` reads (`body` for text payloads; `id`,
`mime_type`, `filename`, `caption` for media payloads).  Absent keys are
`none`, matching `dict.get`'s `None` default. -/
structure RawObj where
  body : Option Str
  id : Option Str
  mime_type : Option Str
  filename : Option Str
  caption : Option Str
deriving DecidableEq

/-- A nested payload with every field absent (Python `{}`). -/
def emptyObj : RawObj := ⟨none, none, none, none, none⟩

/-- A raw inbound message: the `type` discriminator
(`message.get("type")`, `none` when the key is missing) and the remaining
keys of the dict, looked up by name (e.g. `message.get("image", {})`). -/
structure RawMessage where
  type : Option Str
  fields : List (Str × RawObj)
deriving DecidableEq

/-- `message.get(k)` for the nested-payload keys. -/
def RawMessage.get (m : RawMessage) (k : Str) : Option RawObj :=
  List.lookup k m.fields

/-- The canonical record returned by `parse_whatsapp_message`: the dict
`{message_type, message_body, media_id, mime_type, filename, links}`. -/
structure CanonicalMessage where
  message_type : Option Str
  message_body : Option Str
  media_id : Option Str
  mime_type : Option Str
  filename : Option Str
  links : Str
deriving DecidableEq

/-- The media types recognised by the parser:
`["image", "video", "audio", "document", "sticker"]`. -/
def MEDIA_TYPES : List Str :=
  [str "image", str "video", str "audio", str "document", str "sticker"]

/-- Python's `a or b` for a possibly-absent string `a`: `None` and the
empty string are falsy, so both fall through to the default
(`media.get("caption") or f"{msg_type} received"`). -/
def orDefault (c : Option Str) (d : Str) : Str :=
  match c with
  | some x => if x = [] then d else x
  | none => d

/-- How an f-string renders a possibly-`None` value: `None` prints as the
four characters `None`, a string prints verbatim. -/
def pyStr (x : Option Str) : Str :=
  match x with
  | some t => t
  | none => str "None"

/-- `parse_whatsapp_message` from `utils/parser.py`.  Branches on
`msg_type`: `"text"` takes the nested body; a media type takes `id`,
`mime_type`, `filename` and `caption` (with the `"<type> received"`
fallback) from the payload keyed by the type name; anything else gets the
literal `"Unsupported message type: <type>"` body.  `message_type` is the
raw `msg_type` in every branch, and `links` is `extract_links` of the
body. -/
def parse_whatsapp_message (message : RawMessage) : CanonicalMessage :=
  match message.type with
  | some t =>
    if t = str "text" then
      let body := (message.get (str "text")).bind RawObj.body
      ⟨some t, body, none, none, none, extract_links body⟩
    else if t ∈ MEDIA_TYPES then
      let media := (message.get t).getD emptyObj
      let body := orDefault media.caption (t ++ str " received")
      ⟨some t, some body, media.id, media.mime_type, media.filename,
        extract_links (some body)⟩
    else
      let body := str "Unsupported message type: " ++ pyStr (some t)
      ⟨some t, some body, none, none, none, extract_links (some body)⟩
  | none =>
    let body := str "Unsupported message type: " ++ pyStr none
    ⟨none, some body, none, none, none, extract_links (some body)⟩

/-- A registered message processor (`processors/base.py`): a `name` and a
`process` method.  `process` either returns a `Bool` or raises, so its
behaviour on a message is an `Except`: `Except.error e` models a raised
exception with message `e`, `Except.ok b` a normal return. -/
structure Processor (Msg : Type) where
  name : String
  process : Msg → Except String Bool

/-- `RedisSubscriber.add_processor`: appends to the end of the list. -/
def add_processor {Msg : Type} (processors : List (Processor Msg))
    (processor : Processor Msg) : List (Processor Msg) :=
  processors ++ [processor]

/-- `RedisSubscriber.remove_processor`: scans for the first entry whose
`name` equals the argument, pops it and returns `true`; returns `false`
leaving the list unchanged when no entry matches. -/
def remove_processor {Msg : Type} (processors : List (Processor Msg))
    (processor_name : String) : Bool × List (Processor Msg) :=
  match processors with
  | [] => (false, [])
  | p :: ps =>
    if p.name = processor_name then (true, ps)
    else
      let r := remove_processor ps processor_name
      (r.1, p :: r.2)

/-- The observable events of one run of the dispatch loop in
`RedisSubscriber.process_message`: a processor's `process` being invoked,
the log line for a `False` return, and the log line for a caught
exception. -/
inductive LogEvent where
  | invoked (pname : String)
  | returnedFailure (pname : String)
  | errorDuring (pname : String) (msg : String)
deriving DecidableEq

/-- The loop body for one processor: `try: success = processor.process(...)`
— the invocation always happens; a `False` return logs a failure notice;
a raised exception is caught and logged.  Nothing escapes the `except`. -/
def processorLog {Msg : Type} (p : Processor Msg) (m : Msg) : List LogEvent :=
  match p.process m with
  | Except.ok true => []
  | Except.ok false => [LogEvent.returnedFailure p.name]
  | Except.error e => [LogEvent.errorDuring p.name e]

/-- `RedisSubscriber.process_message`: runs every registered processor on
the message, in list order, isolating per-processor failures.  The return
type is a plain event list — the catch-all `except` in the loop body means
no processor fault ever propagates out of dispatch. -/
def process_message {Msg : Type} (processors : List (Processor Msg))
    (m : Msg) : List LogEvent :=
  match processors with
  | [] => []
  | p :: ps => (LogEvent.invoked p.name :: processorLog p m) ++ process_message ps m

/-- The invocation events of a dispatch run, in order. -/
def invokedNames (evs : List LogEvent) : List String :=
  evs.filterMap fun e =>
    match e with
    | LogEvent.invoked n => some n
    | _ => none

/-- The processors logged as having returned `False`, in order. -/
def failureLogs (evs : List LogEvent) : List String :=
  evs.filterMap fun e =>
    match e with
    | LogEvent.returnedFailure n => some n
    | _ => none

/-- The processors logged as having raised, with the exception text. -/
def errorLogs (evs : List LogEvent) : List (String × String) :=
  evs.filterMap fun e =>
    match e with
    | LogEvent.errorDuring n s => some (n, s)
    | _ => none

/-- The canonical message as consumed by processors off the wire
(`{wa_id, sender_name, message_id, message_type, message_body, media_id,
mime_type, filename, links}`); a `none` field is a JSON `null`. -/
structure WireMessage where
  wa_id : Option Str
  sender_name : Option Str
  message_id : Option Str
  message_type : Option Str
  message_body : Option Str
  media_id : Option Str
  mime_type : Option Str
  filename : Option Str
  links : Option Str
deriving DecidableEq

namespace LoggingProcessor

/-- `LoggingProcessor.MAX_BODY_LENGTH`. -/
def MAX_BODY_LENGTH : Nat := 50

/-- The body-rendering step of `LoggingProcessor.process`:
`body[:MAX_BODY_LENGTH] + '...' if len(body) > MAX_BODY_LENGTH else body`
where `body = message_data.get('message_body', 'N/A')`.  The canonical
record always carries the `message_body` key, so on a null body the
lookup yields `None` and `len(None)` raises a `TypeError`. -/
def truncatedBody (body : Option Str) : Except String Str :=
  match body with
  | none => Except.error "TypeError: len of NoneType"
  | some b =>
    Except.ok (if b.length > MAX_BODY_LENGTH then b.take MAX_BODY_LENGTH ++ str "..." else b)

/-- `LoggingProcessor.process`: prints the message details and returns
`True`; on success the rendered (possibly truncated) body line is the
interesting output, so the model returns it alongside the `True`. -/
def process (message_data : WireMessage) : Except String (Bool × Str) :=
  match truncatedBody message_data.message_body with
  | Except.error e => Except.error e
  | Except.ok t => Except.ok (true, t)

end LoggingProcessor

/-- Declarative reading of one regex match at a position: `m` is a scheme
(`http://` or `https://`) followed by a non-empty run `t` of
non-whitespace characters, the run is maximal (the remainder `rest` is
empty or starts with whitespace), and `cs` is exactly `m` followed by
`rest`. -/
def MatchesAt (cs m rest : Str) : Prop :=
  ∃ pre t, (pre = httpsChars ∨ pre = httpChars) ∧ t ≠ [] ∧
    (∀ c ∈ t, isPySpace c = false) ∧
    m = pre ++ t ∧ cs = pre ++ t ++ rest ∧
    (rest = [] ∨ ∃ d ds, rest = d :: ds ∧ isPySpace d = true)

/-- Declarative reading of the whole scan: the match list is obtained by
walking the input left to right, skipping any position where no match
starts, and at each match emitting it and resuming after it
(non-overlapping, left-to-right order of first occurrence). -/
inductive ScanSpec : Str → List Str → Prop where
  | nil : ScanSpec [] []
  | skip (c : Char) (cs : Str) (ms : List Str) :
      (∀ m rest, ¬ MatchesAt (c :: cs) m rest) → ScanSpec cs ms →
      ScanSpec (c :: cs) ms
  | found (cs m rest : Str) (ms : List Str) :
      MatchesAt cs m rest → ScanSpec rest ms → ScanSpec cs (m :: ms)

/-- A string shaped like a single complete match of the link regex. -/
def IsLink (m : Str) : Prop :=
  ∃ pre t, (pre = httpsChars ∨ pre = httpChars) ∧ t ≠ [] ∧
    (∀ c ∈ t, isPySpace c = false) ∧ m = pre ++ t

/-- Concrete processor that succeeds (used to instantiate theorems). -/
def procA : Processor Unit := ⟨"A", fun _ => Except.ok true⟩

/-- Concrete processor that returns `False` (a recoverable failure). -/
def procB : Processor Unit := ⟨"B", fun _ => Except.ok false⟩

/-- Concrete processor that raises; shares its name with `procB`. -/
def procBoom : Processor Unit := ⟨"B", fun _ => Except.error "boom"⟩

/-- Concrete processor with a fresh name (used to instantiate theorems). -/
def procC : Processor Unit := ⟨"C", fun _ => Except.ok true⟩

theorem beginsWith_iff (p : Str) : ∀ l : Str, beginsWith p l = true ↔ ∃ t, l = p ++ t := by
  induction p with
  | nil =>
    intro l
    simp [beginsWith]
  | cons a p ih =>
    intro l
    cases l with
    | nil =>
      simp [beginsWith]
    | cons c cs =>
      constructor
      · intro h
        rw [beginsWith] at h
        by_cases hac : a = c
        · subst hac
          obtain ⟨t, ht⟩ := (ih cs).mp (by simpa [if_pos] using h)
          exact ⟨t, by simp [ht]⟩
        · simp [if_neg hac] at h
      · rintro ⟨t, ht⟩
        obtain ⟨rfl, rfl⟩ : a = c ∧ cs = p ++ t := by
          constructor
          · exact (List.cons.injEq ..).mp (by simpa using ht) |>.1.symm
          · exact (List.cons.injEq ..).mp (by simpa using ht) |>.2
        rw [beginsWith, if_pos rfl]
        exact (ih (p ++ t)).mpr ⟨t, rfl⟩

theorem dropWhile_head_false {p : Char → Bool} :
    ∀ {l d : Str} {c : Char}, l.dropWhile p = c :: d → p c = false := by
  intro l
  induction l with
  | nil => intro d c h; simp [List.dropWhile] at h
  | cons a l ih =>
    intro d c h
    rw [List.dropWhile_cons] at h
    by_cases ha : p a = true
    · exact ih (by simpa [ha] using h)
    · have : a = c ∧ l = d := by
        constructor
        · exact ((List.cons.injEq ..).mp (by simpa [ha] using h)).1
        · exact ((List.cons.injEq ..).mp (by simpa [ha] using h)).2
      rcases this with ⟨rfl, rfl⟩
      simpa using ha

theorem takeWhile_all_append {p : Char → Bool} :
    ∀ (t rest : Str), (∀ c ∈ t, p c = true) →
      (rest = [] ∨ ∃ d ds, rest = d :: ds ∧ p d = false) →
      (t ++ rest).takeWhile p = t ∧ (t ++ rest).dropWhile p = rest := by
  intro t
  induction t with
  | nil =>
    intro rest _ hrest
    rcases hrest with rfl | ⟨d, ds, rfl, hd⟩
    · simp
    · simp [List.takeWhile_cons, List.dropWhile_cons, hd]
  | cons a t ih =>
    intro rest ht hrest
    have ha : p a = true := ht a (by simp)
    have := ih rest (fun c hc => ht c (by simp [hc])) hrest
    simp [List.takeWhile_cons, List.dropWhile_cons, ha, this.1, this.2]

theorem not_beginsWith_https_http (x : Str) :
    beginsWith httpsChars (httpChars ++ x) = false := rfl

theorem matchAt_some_iff {cs m rest : Str} :
    matchAt cs = some (m, rest) ↔ MatchesAt cs m rest := by
  constructor
  · intro h
    rw [matchAt] at h
    by_cases h8 : beginsWith httpsChars cs = true
    · rw [if_pos h8] at h
      obtain ⟨suf, rfl⟩ := (beginsWith_iff httpsChars cs).mp h8
      rw [List.drop_left] at h
      by_cases ht : suf.takeWhile (fun c => !isPySpace c) = []
      · simp [ht] at h
      · rw [if_neg ht] at h
        obtain ⟨rfl, rfl⟩ : httpsChars ++ suf.takeWhile (fun c => !isPySpace c) = m ∧
            suf.dropWhile (fun c => !isPySpace c) = rest := by
          have := (Option.some.injEq ..).mp h
          exact ⟨congrArg Prod.fst this, congrArg Prod.snd this⟩
        refine ⟨httpsChars, suf.takeWhile (fun c => !isPySpace c), Or.inl rfl, ht, ?_, rfl,
          by rw [List.append_assoc, List.takeWhile_append_dropWhile], ?_⟩
        · intro c hc
          have := List.mem_takeWhile_imp hc
          simpa using this
        · cases hd : suf.dropWhile (fun c => !isPySpace c) with
          | nil => exact Or.inl rfl
          | cons d ds =>
            refine Or.inr ⟨d, ds, rfl, ?_⟩
            have := dropWhile_head_false hd
            simpa using this
    · rw [if_neg h8] at h
      by_cases h7 : beginsWith httpChars cs = true
      · rw [if_pos h7] at h
        obtain ⟨suf, rfl⟩ := (beginsWith_iff httpChars cs).mp h7
        rw [List.drop_left] at h
        by_cases ht : suf.takeWhile (fun c => !isPySpace c) = []
        · simp [ht] at h
        · rw [if_neg ht] at h
          obtain ⟨rfl, rfl⟩ : httpChars ++ suf.takeWhile (fun c => !isPySpace c) = m ∧
              suf.dropWhile (fun c => !isPySpace c) = rest := by
            have := (Option.some.injEq ..).mp h
            exact ⟨congrArg Prod.fst this, congrArg Prod.snd this⟩
          refine ⟨httpChars, suf.takeWhile (fun c => !isPySpace c), Or.inr rfl, ht, ?_, rfl,
            by rw [List.append_assoc, List.takeWhile_append_dropWhile], ?_⟩
          · intro c hc
            have := List.mem_takeWhile_imp hc
            simpa using this
          · cases hd : suf.dropWhile (fun c => !isPySpace c) with
            | nil => exact Or.inl rfl
            | cons d ds =>
              refine Or.inr ⟨d, ds, rfl, ?_⟩
              have := dropWhile_head_false hd
              simpa using this
      · simp [if_neg h7] at h
  · rintro ⟨pre, t, hpre, ht, hsp, rfl, rfl, hrest⟩
    have htw := takeWhile_all_append (p := fun c => !isPySpace c) t rest
      (fun c hc => by simpa using hsp c hc)
      (by
        rcases hrest with rfl | ⟨d, ds, rfl, hd⟩
        · exact Or.inl rfl
        · exact Or.inr ⟨d, ds, rfl, by simpa using hd⟩)
    rcases hpre with rfl | rfl
    · have h8 : beginsWith httpsChars (httpsChars ++ (t ++ rest)) = true :=
        (beginsWith_iff httpsChars _).mpr ⟨t ++ rest, rfl⟩
      rw [List.append_assoc, matchAt, if_pos h8, List.drop_left]
      rw [if_neg (by rw [htw.1]; exact ht), htw.1, htw.2]
    · have h8 : beginsWith httpsChars (httpChars ++ (t ++ rest)) = false :=
        not_beginsWith_https_http (t ++ rest)
      have h7 : beginsWith httpChars (httpChars ++ (t ++ rest)) = true :=
        (beginsWith_iff httpChars _).mpr ⟨t ++ rest, rfl⟩
      rw [List.append_assoc, matchAt, if_neg (by simp [h8]), if_pos h7, List.drop_left]
      rw [if_neg (by rw [htw.1]; exact ht), htw.1, htw.2]

theorem matchAt_some_bound {cs m rest : Str} (h : matchAt cs = some (m, rest)) :
    rest.length < cs.length ∧ m ≠ [] := by
  obtain ⟨pre, t, hpre, ht, _, rfl, rfl, _⟩ := matchAt_some_iff.mp h
  have hpl : 7 ≤ pre.length := by
    rcases hpre with rfl | rfl
    · decide
    · decide
  have htl : 1 ≤ t.length := List.length_pos.mpr ht
  constructor
  · simp only [List.length_append]
    omega
  · intro hm
    have : pre.length + t.length = 0 := by
      simpa [List.length_append] using congrArg List.length hm
    omega

theorem findallFuel_nil (fuel : Nat) : findallFuel fuel [] = [] := by
  cases fuel with
  | zero => rfl
  | succ n => rfl

theorem scanSpec_findallFuel :
    ∀ (fuel : Nat) (cs : Str), cs.length ≤ fuel → ScanSpec cs (findallFuel fuel cs) := by
  intro fuel
  induction fuel with
  | zero =>
    intro cs hcs
    have : cs = [] := List.eq_nil_of_length_eq_zero (Nat.le_zero.mp hcs)
    subst this
    exact ScanSpec.nil
  | succ fuel ih =>
    intro cs hcs
    cases cs with
    | nil => exact ScanSpec.nil
    | cons c cs1 =>
      cases h : matchAt (c :: cs1) with
      | some pr =>
        obtain ⟨m, rest⟩ := pr
        have hlt := matchAt_some_bound h
        rw [show findallFuel (fuel + 1) (c :: cs1) = m :: findallFuel fuel rest by
          rw [findallFuel, h]]
        exact ScanSpec.found _ _ _ _ (matchAt_some_iff.mp h)
          (ih rest (by have := hlt.1; simp at this ⊢; omega))
      | none =>
        rw [show findallFuel (fuel + 1) (c :: cs1) = findallFuel fuel cs1 by
          rw [findallFuel, h]]
        refine ScanSpec.skip c cs1 _ ?_ (ih cs1 (by simpa using hcs))
        intro m rest hm
        rw [matchAt_some_iff.mpr hm] at h
        exact Option.noConfusion h

theorem scanSpec_findall (cs : Str) : ScanSpec cs (findall cs) :=
  scanSpec_findallFuel cs.length cs (Nat.le_refl _)

theorem findallFuel_mem_isLink :
    ∀ (fuel : Nat) (cs m : Str), m ∈ findallFuel fuel cs → IsLink m := by
  intro fuel
  induction fuel with
  | zero => intro cs m hm; simp [findallFuel] at hm
  | succ fuel ih =>
    intro cs m hm
    cases cs with
    | nil => simp [findallFuel] at hm
    | cons c cs1 =>
      cases h : matchAt (c :: cs1) with
      | some pr =>
        obtain ⟨m0, rest⟩ := pr
        rw [show findallFuel (fuel + 1) (c :: cs1) = m0 :: findallFuel fuel rest by
          rw [findallFuel, h]] at hm
        rcases List.mem_cons.mp hm with rfl | hm2
        · obtain ⟨pre, t, hpre, ht, hsp, hm0, _, _⟩ := matchAt_some_iff.mp h
          exact ⟨pre, t, hpre, ht, hsp, hm0⟩
        · exact ih rest m hm2
      | none =>
        rw [show findallFuel (fuel + 1) (c :: cs1) = findallFuel fuel cs1 by
          rw [findallFuel, h]] at hm
        exact ih cs1 m hm

theorem isLink_findall_self {m : Str} (h : IsLink m) : findall m = [m] := by
  obtain ⟨pre, t, hpre, ht, hsp, rfl⟩ := h
  have hmatch : matchAt (pre ++ t) = some (pre ++ t, []) := by
    apply matchAt_some_iff.mpr
    exact ⟨pre, t, hpre, ht, hsp, rfl, by simp, Or.inl rfl⟩
  have hne : pre ++ t ≠ [] := by
    rcases hpre with rfl | rfl <;> simp [httpsChars, httpChars]
  cases hm : pre ++ t with
  | nil => exact absurd hm hne
  | cons c ms =>
    rw [findall]
    rw [show (c :: ms).length = ms.length + 1 by simp]
    rw [findallFuel, show matchAt (c :: ms) = some (c :: ms, []) by rw [← hm]; exact hmatch]
    show (c :: ms) :: findallFuel ms.length [] = [c :: ms]
    rw [findallFuel_nil]

theorem invokedNames_processorLog {Msg : Type} (p : Processor Msg) (m : Msg) :
    invokedNames (processorLog p m) = [] := by
  cases hp : p.process m with
  | error e => simp [processorLog, hp, invokedNames]
  | ok b => cases b <;> simp [processorLog, hp, invokedNames]

theorem invokedNames_process_message {Msg : Type} (procs : List (Processor Msg)) (m : Msg) :
    invokedNames (process_message procs m) = procs.map Processor.name := by
  induction procs with
  | nil => rfl
  | cons p ps ih =>
    have h1 : invokedNames ((LogEvent.invoked p.name :: processorLog p m) ++
        process_message ps m) =
        p.name :: (invokedNames (processorLog p m) ++ invokedNames (process_message ps m)) := by
      simp [invokedNames, List.filterMap_append, List.filterMap_cons]
    rw [process_message, h1, invokedNames_processorLog, ih]
    simp

theorem failureLogs_process_message {Msg : Type} (procs : List (Processor Msg)) (m : Msg) :
    failureLogs (process_message procs m) =
      procs.filterMap fun p =>
        match p.process m with
        | Except.ok false => some p.name
        | _ => none := by
  induction procs with
  | nil => rfl
  | cons p ps ih =>
    rw [process_message]
    cases hp : p.process m with
    | error e =>
      simp [processorLog, hp, failureLogs, List.filterMap_append, List.filterMap_cons] at ih ⊢
      exact ih
    | ok b =>
      cases b <;>
        simp [processorLog, hp, failureLogs, List.filterMap_append, List.filterMap_cons] at ih ⊢ <;>
        exact ih

theorem errorLogs_process_message {Msg : Type} (procs : List (Processor Msg)) (m : Msg) :
    errorLogs (process_message procs m) =
      procs.filterMap fun p =>
        match p.process m with
        | Except.error e => some (p.name, e)
        | _ => none := by
  induction procs with
  | nil => rfl
  | cons p ps ih =>
    rw [process_message]
    cases hp : p.process m with
    | error e =>
      simp [processorLog, hp, errorLogs, List.filterMap_append, List.filterMap_cons] at ih ⊢
      exact ih
    | ok b =>
      cases b <;>
        simp [processorLog, hp, errorLogs, List.filterMap_append, List.filterMap_cons] at ih ⊢ <;>
        exact ih

theorem remove_processor_no_match {Msg : Type} :
    ∀ (ps : List (Processor Msg)) (n : String), (∀ p ∈ ps, p.name ≠ n) →
      remove_processor ps n = (false, ps) := by
  intro ps
  induction ps with
  | nil => intro n _; rfl
  | cons p ps ih =>
    intro n h
    rw [remove_processor, if_neg (h p (by simp))]
    rw [ih n (fun q hq => h q (by simp [hq]))]

theorem remove_processor_first {Msg : Type} :
    ∀ (pre : List (Processor Msg)) (p : Processor Msg) (post : List (Processor Msg))
      (n : String), p.name = n → (∀ q ∈ pre, q.name ≠ n) →
      remove_processor (pre ++ p :: post) n = (true, pre ++ post) := by
  intro pre
  induction pre with
  | nil =>
    intro p post n hp _
    simp only [List.nil_append]
    rw [remove_processor, if_pos hp]
  | cons q pre ih =>
    intro p post n hp h
    simp only [List.cons_append]
    rw [remove_processor, if_neg (h q (by simp))]
    rw [ih p post n hp (fun r hr => h r (by simp [hr]))]

theorem extract_links_idem_of_le_one :
    ∀ t : Str, (findall t).length ≤ 1 →
      extract_links (some (extract_links (some t))) = extract_links (some t) := by
  intro t h
  cases hf : findall t with
  | nil =>
    have h1 : extract_links (some t) = [] := by
      by_cases ht : t = []
      · simp [extract_links, ht]
      · simp [extract_links, ht, hf, joinComma]
    rw [h1]
    rfl
  | cons m ms =>
    cases ms with
    | cons m2 ms2 => rw [hf] at h; simp at h
    | nil =>
      have ht : t ≠ [] := by
        intro h0
        subst h0
        exact List.noConfusion ((show findall [] = [] from rfl).symm.trans hf)
      have h1 : extract_links (some t) = m := by
        simp [extract_links, ht, hf, joinComma]
      have hlink : IsLink m :=
        findallFuel_mem_isLink t.length t m (by rw [← findall, hf]; simp)
      have hm_ne : m ≠ [] := by
        obtain ⟨pre, tt, hpre, htt, _, rfl⟩ := hlink
        rcases hpre with rfl | rfl <;> simp [httpsChars, httpChars]
      rw [h1]
      simp [extract_links, hm_ne, isLink_findall_self hlink, joinComma]

/-- C1: for every dispatched message and every registry, the dispatch
loop invokes each registered processor exactly once, in registration
order — whatever each `process` does (raise, return `False`, or return
`True`); a raised fault is caught and logged with the processor's name, a
`False` return is logged, and the loop continues.  `process_message`
returns a plain event list, so no fault propagates to its caller. -/
theorem dispatch_fault_isolation {Msg : Type} (procs : List (Processor Msg)) (m : Msg) :
    invokedNames (process_message procs m) = procs.map Processor.name ∧
    failureLogs (process_message procs m) =
      (procs.filterMap fun p =>
        match p.process m with
        | Except.ok false => some p.name
        | _ => none) ∧
    errorLogs (process_message procs m) =
      (procs.filterMap fun p =>
        match p.process m with
        | Except.error e => some (p.name, e)
        | _ => none) :=
  ⟨invokedNames_process_message procs m, failureLogs_process_message procs m,
   errorLogs_process_message procs m⟩

/-- C2, counterexample: link extraction is not idempotent.  On the spec's
own example the first pass yields `"https://a.com, https://b.com"`, and a
second pass absorbs the joining comma into the first match (`\S+` matches
the comma), yielding `"https://a.com,, https://b.com"`. -/
theorem extract_links_not_idempotent :
    ¬ (extract_links (some (extract_links (some (str "hi https://a.com and https://b.com")))) =
        extract_links (some (str "hi https://a.com and https://b.com"))) := by decide

/-- C2, amended: link extraction is order-preserving — on the example the
output is exactly `"https://a.com"`, then `", "`, then `"https://b.com"` —
and it is idempotent on inputs with at most one match; with two or more
matches idempotence fails (see the counterexample). -/
theorem extract_links_order_and_restricted_idempotence :
    extract_links (some (str "hi https://a.com and https://b.com")) =
      str "https://a.com" ++ str ", " ++ str "https://b.com" ∧
    (∀ t : Str, (findall t).length ≤ 1 →
      extract_links (some (extract_links (some t))) = extract_links (some t)) :=
  ⟨by decide, extract_links_idem_of_le_one⟩

theorem extract_links_order_and_restricted_idempotence_witness :
    (findall (str "see https://one.com")).length ≤ 1 ∧
    extract_links (some (extract_links (some (str "see https://one.com")))) =
      extract_links (some (str "see https://one.com")) :=
  ⟨by decide,
   extract_links_order_and_restricted_idempotence.2 (str "see https://one.com") (by decide)⟩

/-- C3, counterexample: the canonical `message_type` of a raw message of
unrecognized type `"foobar"` is `"foobar"` itself, which is none of the
enumeration values text, image, video, audio, document, sticker,
unsupported — the parser passes the raw type through verbatim. -/
theorem message_type_not_in_enum :
    (parse_whatsapp_message ⟨some (str "foobar"), []⟩).message_type ∉
      [some (str "text"), some (str "image"), some (str "video"), some (str "audio"),
       some (str "document"), some (str "sticker"), some (str "unsupported")] := by decide

/-- C3, amended: `message_type` equals the raw `type` field verbatim in
every branch (including unrecognized and missing types, which are marked
only in the body string, never mapped to an `unsupported` enum value). -/
theorem message_type_verbatim (m : RawMessage) :
    (parse_whatsapp_message m).message_type = m.type := by
  cases hm : m.type with
  | none => simp [parse_whatsapp_message, hm]
  | some t =>
    by_cases h1 : t = str "text"
    · simp [parse_whatsapp_message, hm, h1]
    · by_cases h2 : t ∈ MEDIA_TYPES <;> simp [parse_whatsapp_message, hm, h1, h2]

/-- C4, counterexample: a raw `image` message whose payload carries a
`filename` field gets that filename in the canonical record — it is not
null for non-document media types. -/
theorem filename_taken_for_image :
    (parse_whatsapp_message
      ⟨some (str "image"),
       [(str "image",
         ⟨none, some (str "mid1"), some (str "image/jpeg"), some (str "pic.jpg"), none⟩)]⟩).filename
      = some (str "pic.jpg") := by decide

/-- C4, amended: for every media type (image, video, audio, document,
sticker) alike, `filename` is whatever the nested payload's `filename`
field holds (null only when that field is absent); for text and
unrecognized types it is null. -/
theorem filename_from_payload (m : RawMessage) :
    (parse_whatsapp_message m).filename =
      (match m.type with
       | some t => if t ∈ MEDIA_TYPES then ((m.get t).getD emptyObj).filename else none
       | none => none) := by
  cases hm : m.type with
  | none => simp [parse_whatsapp_message, hm]
  | some t =>
    by_cases h1 : t = str "text"
    · subst h1
      simp [parse_whatsapp_message, hm, show str "text" ∉ MEDIA_TYPES by decide]
    · by_cases h2 : t ∈ MEDIA_TYPES <;> simp [parse_whatsapp_message, hm, h1, h2]

/-- C5: the Structured-Log Processor on a canonical message whose
`message_body` is null raises a `TypeError` (from `len(body)`) instead of
returning true; on non-null bodies it returns true with the body rendered
truncated to 50 characters plus `"..."` when longer, in full otherwise. -/
theorem logging_process_null_body :
    LoggingProcessor.process
      ⟨some (str "15551234567"), some (str "John"), some (str "wamid.X"), some (str "text"),
       none, none, none, none, some []⟩ = Except.error "TypeError: len of NoneType" ∧
    LoggingProcessor.process
      ⟨some (str "15551234567"), some (str "John"), some (str "wamid.Y"), some (str "text"),
       some (str "0123456789012345678901234567890123456789012345678901234"),
       none, none, none, some []⟩
      = Except.ok (true, str "01234567890123456789012345678901234567890123456789" ++ str "...") ∧
    LoggingProcessor.process
      ⟨some (str "15551234567"), some (str "John"), some (str "wamid.Z"), some (str "text"),
       some (str "short body"), none, none, none, some []⟩
      = Except.ok (true, str "short body") :=
  ⟨rfl, rfl, rfl⟩

/-- C6: `remove_processor` on a registry with no matching name returns
`false` and leaves the list unchanged; when one or more entries match, it
removes exactly the first matching entry, keeps every other entry in its
original relative order, and returns `true`.  (It is a total function, so
it never raises.) -/
theorem remove_processor_spec (Msg : Type) :
    (∀ (ps : List (Processor Msg)) (n : String), (∀ p ∈ ps, p.name ≠ n) →
       remove_processor ps n = (false, ps)) ∧
    (∀ (before : List (Processor Msg)) (p : Processor Msg) (post : List (Processor Msg))
       (n : String), p.name = n → (∀ q ∈ before, q.name ≠ n) →
       remove_processor (before ++ p :: post) n = (true, before ++ post)) :=
  ⟨fun ps n h => remove_processor_no_match ps n h,
   fun before p post n hp h => remove_processor_first before p post n hp h⟩

theorem remove_processor_spec_witness :
    (∀ p ∈ [procA], p.name ≠ "Z") ∧
    remove_processor [procA] "Z" = (false, [procA]) ∧
    procB.name = "B" ∧
    remove_processor ([procA] ++ procB :: [procBoom]) "B" = (true, [procA] ++ [procBoom]) :=
  ⟨by decide, (remove_processor_spec Unit).1 [procA] "Z" (by decide), rfl,
   (remove_processor_spec Unit).2 [procA] procB [procBoom] "B" rfl (by decide)⟩

/-- C7: a raw text message yields `message_type "text"`, the nested text
body verbatim as the canonical body (null when the nested body is
absent), null media fields, and links extracted from that body; on the
spec's scenario payload the canonical record is exactly as stated. -/
theorem parse_text_message :
    (∀ m : RawMessage, m.type = some (str "text") →
       parse_whatsapp_message m =
         ⟨some (str "text"), (m.get (str "text")).bind RawObj.body, none, none, none,
          extract_links ((m.get (str "text")).bind RawObj.body)⟩) ∧
    parse_whatsapp_message
        ⟨some (str "text"),
         [(str "text", ⟨some (str "Check https://ex.com"), none, none, none, none⟩)]⟩ =
      ⟨some (str "text"), some (str "Check https://ex.com"), none, none, none,
       str "https://ex.com"⟩ := by
  constructor
  · intro m hm
    simp [parse_whatsapp_message, hm]
  · decide

theorem parse_text_message_witness :
    (⟨some (str "text"), [(str "text", ⟨some (str "hello there"), none, none, none, none⟩)]⟩ :
        RawMessage).type = some (str "text") ∧
    parse_whatsapp_message
        ⟨some (str "text"), [(str "text", ⟨some (str "hello there"), none, none, none, none⟩)]⟩ =
      ⟨some (str "text"), some (str "hello there"), none, none, none, []⟩ :=
  ⟨rfl, (parse_text_message.1 _ rfl).trans (by decide)⟩

/-- C8: for a missing or unrecognized raw type, the canonical body is the
literal string `"Unsupported message type: <type>"` (a missing type
renders as `None`), all media fields are null, and nothing is raised
(the parser is a total function). -/
theorem parse_unsupported_message :
    ∀ m : RawMessage,
      (m.type = none ∨ ∃ t, m.type = some t ∧ t ≠ str "text" ∧ t ∉ MEDIA_TYPES) →
      parse_whatsapp_message m =
        ⟨m.type, some (str "Unsupported message type: " ++ pyStr m.type), none, none, none,
         extract_links (some (str "Unsupported message type: " ++ pyStr m.type))⟩ := by
  intro m h
  rcases h with hm | ⟨t, hm, h1, h2⟩
  · simp [parse_whatsapp_message, hm, pyStr]
  · simp [parse_whatsapp_message, hm, h1, h2, pyStr]

theorem parse_unsupported_message_witness :
    ((⟨some (str "reaction"), []⟩ : RawMessage).type = none ∨
      ∃ t, (⟨some (str "reaction"), []⟩ : RawMessage).type = some t ∧ t ≠ str "text" ∧
        t ∉ MEDIA_TYPES) ∧
    parse_whatsapp_message ⟨some (str "reaction"), []⟩ =
      ⟨some (str "reaction"), some (str "Unsupported message type: reaction"), none, none,
       none, []⟩ :=
  ⟨Or.inr ⟨str "reaction", rfl, by decide, by decide⟩,
   (parse_unsupported_message _ (Or.inr ⟨str "reaction", rfl, by decide, by decide⟩)).trans
     (by decide)⟩

/-- C9: link extraction on a null or empty body returns the empty string
(and, being a total function, never raises); on any body it returns
exactly the left-to-right, non-overlapping, maximal matches of
`http(s)://` followed by one-or-more non-whitespace characters
(`ScanSpec`/`MatchesAt`), joined with `", "`. -/
theorem extract_links_characterization :
    extract_links none = [] ∧ extract_links (some []) = [] ∧
    (∀ t : Str, ScanSpec t (findall t) ∧
      extract_links (some t) = joinComma (findall t)) := by
  refine ⟨rfl, rfl, fun t => ⟨scanSpec_findall t, ?_⟩⟩
  by_cases ht : t = []
  · subst ht; rfl
  · simp [extract_links, ht]

/-- C10: registering a processor whose name is fresh and then
unregistering that name returns `true` and restores the registry to
exactly its previous state (the append-at-end is undone by the
first-match removal). -/
theorem register_then_unregister (Msg : Type) (ps : List (Processor Msg)) (p : Processor Msg)
    (h : ∀ q ∈ ps, q.name ≠ p.name) :
    remove_processor (add_processor ps p) p.name = (true, ps) := by
  have := remove_processor_first ps p [] p.name rfl h
  simpa [add_processor] using this

theorem register_then_unregister_witness :
    (∀ q ∈ [procA], q.name ≠ procC.name) ∧
    remove_processor (add_processor [procA] procC) procC.name = (true, [procA]) :=
  ⟨by decide, register_then_unregister Unit [procA] procC (by decide)⟩
